import Mathlib

/-!
Verification of the `logsumexp` library (src/lib.rs): the pairwise
`ln_add_exp` operation and the one-pass streaming `ln_sum_exp` reduction.

Floating-point values are embedded as an idealized IEEE-754 scalar type:
a finite value carries an exact real number, and the special values
NaN, +infinity and -infinity are explicit constructors.  Rounding, NaN
payloads and signed zero are not modelled; the arithmetic on special
values follows IEEE-754 exactly, which is what the claims are about.
-/

/-- An idealized IEEE-754 floating-point value: NaN, +infinity, -infinity,
or an exact finite real number. -/
inductive Scalar where
  | nan : Scalar
  | inf : Scalar
  | neginf : Scalar
  | finite : ℝ → Scalar

namespace Scalar

/-- IEEE-754 addition on idealized scalars: NaN propagates, opposite
infinities give NaN, an infinity absorbs any finite operand. -/
def add : Scalar → Scalar → Scalar
  | nan, _ => nan
  | _, nan => nan
  | inf, neginf => nan
  | neginf, inf => nan
  | inf, _ => inf
  | _, inf => inf
  | neginf, _ => neginf
  | _, neginf => neginf
  | finite a, finite b => finite (a + b)

/-- IEEE-754 subtraction on idealized scalars. -/
def sub : Scalar → Scalar → Scalar
  | nan, _ => nan
  | _, nan => nan
  | inf, inf => nan
  | neginf, neginf => nan
  | inf, _ => inf
  | _, inf => neginf
  | neginf, _ => neginf
  | _, neginf => inf
  | finite a, finite b => finite (a - b)

/-- IEEE-754 multiplication on idealized scalars: NaN propagates,
`0 * infinity` is NaN, otherwise infinities keep the sign rule. -/
noncomputable def mul : Scalar → Scalar → Scalar
  | nan, _ => nan
  | _, nan => nan
  | inf, inf => inf
  | inf, neginf => neginf
  | neginf, inf => neginf
  | neginf, neginf => inf
  | inf, finite b => if b = 0 then nan else if 0 < b then inf else neginf
  | finite a, inf => if a = 0 then nan else if 0 < a then inf else neginf
  | neginf, finite b => if b = 0 then nan else if 0 < b then neginf else inf
  | finite a, neginf => if a = 0 then nan else if 0 < a then neginf else inf
  | finite a, finite b => finite (a * b)

/-- The `f64::max` method: NaN-ignoring maximum (returns the other operand
when one operand is NaN). -/
noncomputable def max : Scalar → Scalar → Scalar
  | nan, b => b
  | a, nan => a
  | inf, _ => inf
  | _, inf => inf
  | neginf, b => b
  | a, neginf => a
  | finite a, finite b => finite (Max.max a b)

/-- The `f64::exp` method on idealized scalars: `exp(-inf) = 0`,
`exp(+inf) = +inf`, NaN propagates. -/
noncomputable def exp : Scalar → Scalar
  | nan => nan
  | inf => inf
  | neginf => finite 0
  | finite x => finite (Real.exp x)

/-- The `f64::ln` method on idealized scalars: `ln(0) = -inf`, the log of a
negative number or of `-inf` is NaN, `ln(+inf) = +inf`, NaN propagates. -/
noncomputable def ln : Scalar → Scalar
  | nan => nan
  | inf => inf
  | neginf => nan
  | finite x => if x = 0 then neginf else if x < 0 then nan else finite (Real.log x)

/-- Modelled from the spec: the external stability primitive `ln_1p_exp` of
the `lnexp` crate (spec section 6), with contract `log(1 + exp(x))`, NaN
propagated; at the infinities the contract gives `+inf` and `0`. -/
noncomputable def ln_1p_exp : Scalar → Scalar
  | nan => nan
  | inf => inf
  | neginf => finite 0
  | finite x => finite (Real.log (1 + Real.exp x))

/-- The `f64::is_nan` test. -/
def isNan : Scalar → Prop
  | nan => True
  | _ => False

/-- The IEEE-754 `<` comparison: any comparison against NaN is false. -/
def Lt : Scalar → Scalar → Prop
  | nan, _ => False
  | _, nan => False
  | inf, _ => False
  | neginf, neginf => False
  | neginf, _ => True
  | finite _, inf => True
  | finite _, neginf => False
  | finite a, finite b => a < b

/-- The IEEE-754 `==` comparison: any comparison against NaN is false
(NaN is not equal to itself). -/
def Eqf : Scalar → Scalar → Prop
  | inf, inf => True
  | neginf, neginf => True
  | finite a, finite b => a = b
  | _, _ => False

noncomputable instance instDecidableLt (a b : Scalar) : Decidable (Lt a b) :=
  Classical.propDecidable _

noncomputable instance instDecidableEqf (a b : Scalar) : Decidable (Eqf a b) :=
  Classical.propDecidable _

end Scalar

/-- Embedding of `LogAddExp::ln_add_exp` (src/lib.rs lines 44-55): pick
`(max, diff)` by the IEEE comparisons `self < rhs` and `self == rhs` (NaN
makes both false and falls to the final branch), then return
`max + diff.ln_1p_exp()`. -/
noncomputable def ln_add_exp (a b : Scalar) : Scalar :=
  let md : Scalar × Scalar :=
    if Scalar.Lt a b then (b, Scalar.sub a b)
    else if Scalar.Eqf a b then (b, Scalar.finite 0)
    else (a, Scalar.sub b a)
  Scalar.add md.1 (Scalar.ln_1p_exp md.2)

/-- Embedding of the inner `while let` scan of the by-value
`LogSumExp::ln_sum_exp` (src/lib.rs lines 121-126): after a `+inf` element,
scan the remainder, returning the NaN if one is found and `+inf` otherwise. -/
def hasNanScan : List Scalar → Scalar
  | [] => Scalar.inf
  | Scalar.nan :: _ => Scalar.nan
  | _ :: rest => hasNanScan rest

/-- Embedding of the main loop of the by-value `LogSumExp::ln_sum_exp`
(src/lib.rs lines 109-138), with the accumulators `m_old` and `sum` as
arguments: skip `-inf`; on `+inf` scan the rest for NaN; on NaN return it;
on a finite element rescale `sum` and update the running max; at the end of
the sequence return `m_old + sum.ln()`. -/
noncomputable def lseLoop : Scalar → Scalar → List Scalar → Scalar
  | m_old, sum, [] => Scalar.add m_old (Scalar.ln sum)
  | m_old, sum, Scalar.neginf :: rest => lseLoop m_old sum rest
  | _, _, Scalar.inf :: rest => hasNanScan rest
  | _, _, Scalar.nan :: _ => Scalar.nan
  | m_old, sum, Scalar.finite x :: rest =>
      let m_new := Scalar.max m_old (Scalar.finite x)
      lseLoop m_new
        (Scalar.add (Scalar.mul sum (Scalar.exp (Scalar.sub m_old m_new)))
          (Scalar.exp (Scalar.sub (Scalar.finite x) m_new)))
        rest

/-- Embedding of the by-value `LogSumExp::ln_sum_exp` (src/lib.rs lines
109-138): run the loop with `m_old = -inf` and `sum = 0.0`. -/
noncomputable def ln_sum_exp (v : List Scalar) : Scalar :=
  lseLoop Scalar.neginf (Scalar.finite 0) v

/-- Embedding of the inner `while let` scan of the by-reference
`LogSumExp::ln_sum_exp` (src/lib.rs lines 153-158); references are
identities in this model. -/
def hasNanScanRef : List Scalar → Scalar
  | [] => Scalar.inf
  | Scalar.nan :: _ => Scalar.nan
  | _ :: rest => hasNanScanRef rest

/-- Embedding of the main loop of the by-reference `LogSumExp::ln_sum_exp`
(src/lib.rs lines 146-168); the body dereferences each borrowed element and
is otherwise identical to the by-value loop. -/
noncomputable def lseLoopRef : Scalar → Scalar → List Scalar → Scalar
  | m_old, sum, [] => Scalar.add m_old (Scalar.ln sum)
  | m_old, sum, Scalar.neginf :: rest => lseLoopRef m_old sum rest
  | _, _, Scalar.inf :: rest => hasNanScanRef rest
  | _, _, Scalar.nan :: _ => Scalar.nan
  | m_old, sum, Scalar.finite x :: rest =>
      let m_new := Scalar.max m_old (Scalar.finite x)
      lseLoopRef m_new
        (Scalar.add (Scalar.mul sum (Scalar.exp (Scalar.sub m_old m_new)))
          (Scalar.exp (Scalar.sub (Scalar.finite x) m_new)))
        rest

/-- Embedding of the by-reference `LogSumExp::ln_sum_exp` (src/lib.rs lines
146-168). -/
noncomputable def ln_sum_exp_ref (v : List Scalar) : Scalar :=
  lseLoopRef Scalar.neginf (Scalar.finite 0) v

/-- The accumulator transition of the main loop, restricted to a stretch of
the input that triggers no early return: `-inf` elements are skipped, and
every other element is processed by the rescale-and-add update of src/lib.rs
lines 132-134.  Returns the pair `(m_old, sum)` after the stretch. -/
noncomputable def lseRun : Scalar → Scalar → List Scalar → Scalar × Scalar
  | m_old, sum, [] => (m_old, sum)
  | m_old, sum, Scalar.neginf :: rest => lseRun m_old sum rest
  | m_old, sum, v :: rest =>
      let m_new := Scalar.max m_old v
      lseRun m_new
        (Scalar.add (Scalar.mul sum (Scalar.exp (Scalar.sub m_old m_new)))
          (Scalar.exp (Scalar.sub v m_new)))
        rest

/-- The finite real values occurring in a list of scalars, in order. -/
def finVals : List Scalar → List ℝ
  | [] => []
  | Scalar.finite x :: rest => x :: finVals rest
  | _ :: rest => finVals rest

/-- The maximum of a list of reals (0 on the empty list, which is never
used with the empty list in the invariant below). -/
def rmax : List ℝ → ℝ
  | [] => 0
  | [x] => x
  | x :: y :: l => Max.max x (rmax (y :: l))

/-- The loop invariant of the streaming pass: either no finite element has
been processed yet and the accumulators still hold their seeds, or `m_old`
is the maximum of the finite values processed so far and `sum` is the exact
sum of the terms `exp(v - m_old)` over those values. -/
def GoodState (m s : Scalar) (l : List ℝ) : Prop :=
  (l = [] ∧ m = Scalar.neginf ∧ s = Scalar.finite 0) ∨
  (l ≠ [] ∧ m = Scalar.finite (rmax l) ∧
    s = Scalar.finite ((l.map fun x => Real.exp (x - rmax l)).sum))

/-- `InsNegInf v w` holds when `w` is obtained from `v` by inserting any
number of extra `-inf` elements at any positions. -/
inductive InsNegInf : List Scalar → List Scalar → Prop
  | nil : InsNegInf [] []
  | cons (v : Scalar) {l w : List Scalar} : InsNegInf l w → InsNegInf (v :: l) (v :: w)
  | ins {l w : List Scalar} : InsNegInf l w → InsNegInf l (Scalar.neginf :: w)

theorem hasNanScan_of_nan_mem {l : List Scalar} (h : Scalar.nan ∈ l) :
    hasNanScan l = Scalar.nan := by
  induction l with
  | nil => cases h
  | cons v rest ih =>
    rcases List.mem_cons.mp h with hv | hv
    · rw [← hv]
      rfl
    · cases v with
      | nan => rfl
      | inf => simpa [hasNanScan] using ih hv
      | neginf => simpa [hasNanScan] using ih hv
      | finite x => simpa [hasNanScan] using ih hv

theorem hasNanScan_of_nan_not_mem {l : List Scalar} (h : Scalar.nan ∉ l) :
    hasNanScan l = Scalar.inf := by
  induction l with
  | nil => rfl
  | cons v rest ih =>
    have hv : Scalar.nan ≠ v := fun hv => h (hv ▸ List.mem_cons_self _ _)
    have hr : Scalar.nan ∉ rest := fun hr => h (List.mem_cons_of_mem _ hr)
    cases v with
    | nan => exact absurd rfl hv
    | inf => simpa [hasNanScan] using ih hr
    | neginf => simpa [hasNanScan] using ih hr
    | finite x => simpa [hasNanScan] using ih hr

theorem lseLoop_of_nan_mem {l : List Scalar} (h : Scalar.nan ∈ l) :
    ∀ m s, lseLoop m s l = Scalar.nan := by
  induction l with
  | nil => cases h
  | cons v rest ih =>
    intro m s
    rcases List.mem_cons.mp h with hv | hv
    · rw [← hv]
      rfl
    · cases v with
      | nan => rfl
      | inf => simpa [lseLoop] using hasNanScan_of_nan_mem hv
      | neginf => simpa [lseLoop] using ih hv m s
      | finite x => simpa [lseLoop] using ih hv _ _

theorem lseLoop_of_inf_mem {l : List Scalar} (hinf : Scalar.inf ∈ l)
    (hnan : Scalar.nan ∉ l) : ∀ m s, lseLoop m s l = Scalar.inf := by
  induction l with
  | nil => cases hinf
  | cons v rest ih =>
    intro m s
    have hr : Scalar.nan ∉ rest := fun h => hnan (List.mem_cons_of_mem _ h)
    rcases List.mem_cons.mp hinf with hv | hv
    · rw [← hv]
      simpa [lseLoop] using hasNanScan_of_nan_not_mem hr
    · cases v with
      | nan => exact absurd (List.mem_cons_self _ _) hnan
      | inf => simpa [lseLoop] using hasNanScan_of_nan_not_mem hr
      | neginf => simpa [lseLoop] using ih hv hr m s
      | finite x => simpa [lseLoop] using ih hv hr _ _

/-- C1: if the input sequence contains a NaN at any position, `ln_sum_exp`
returns NaN, even when the sequence also contains `+inf` before or after the
NaN; the result does not depend on anything past the NaN. -/
theorem c1_nan_anywhere_gives_nan {v : List Scalar} (h : Scalar.nan ∈ v) :
    ln_sum_exp v = Scalar.nan :=
  lseLoop_of_nan_mem h Scalar.neginf (Scalar.finite 0)

/-- Witness for C1 at the concrete input `[+inf, NaN]`. -/
theorem c1_witness :
    Scalar.nan ∈ [Scalar.inf, Scalar.nan] ∧
    ln_sum_exp [Scalar.inf, Scalar.nan] = Scalar.nan :=
  ⟨by simp, c1_nan_anywhere_gives_nan (by simp)⟩

/-- C2: if the input sequence contains at least one `+inf` and no NaN, then
`ln_sum_exp` returns `+inf`, regardless of the position of the `+inf` and of
the finite or `-inf` elements around it. -/
theorem c2_inf_no_nan_gives_inf {v : List Scalar} (hinf : Scalar.inf ∈ v)
    (hnan : Scalar.nan ∉ v) : ln_sum_exp v = Scalar.inf :=
  lseLoop_of_inf_mem hinf hnan Scalar.neginf (Scalar.finite 0)

/-- Witness for C2 at the concrete input `[-inf, +inf]`. -/
theorem c2_witness :
    Scalar.inf ∈ [Scalar.neginf, Scalar.inf] ∧
    Scalar.nan ∉ [Scalar.neginf, Scalar.inf] ∧
    ln_sum_exp [Scalar.neginf, Scalar.inf] = Scalar.inf :=
  ⟨by simp, by simp, c2_inf_no_nan_gives_inf (by simp) (by simp)⟩

/-- C7: on the empty sequence `ln_sum_exp` returns exactly `-inf` (not NaN):
the accumulators keep their seeds and the finalization
`m_old + sum.ln() = -inf + ln(0) = -inf + -inf` evaluates to `-inf`. -/
theorem c7_empty_gives_neg_inf :
    ln_sum_exp [] = Scalar.neginf ∧
    Scalar.add Scalar.neginf (Scalar.ln (Scalar.finite 0)) = Scalar.neginf := by
  constructor
  · show Scalar.add Scalar.neginf (Scalar.ln (Scalar.finite 0)) = Scalar.neginf
    simp [Scalar.ln, Scalar.add]
  · simp [Scalar.ln, Scalar.add]

/-- C8: on a singleton sequence `[x]`, `ln_sum_exp` returns `x` unchanged,
for `x` finite, `+inf`, `-inf` or NaN. -/
theorem c8_singleton_identity (x : Scalar) : ln_sum_exp [x] = x := by
  cases x with
  | nan => rfl
  | inf => rfl
  | neginf =>
    show Scalar.add Scalar.neginf (Scalar.ln (Scalar.finite 0)) = Scalar.neginf
    simp [Scalar.ln, Scalar.add]
  | finite a =>
    show lseLoop Scalar.neginf (Scalar.finite 0) [Scalar.finite a] = Scalar.finite a
    have h10 : ¬ (1 : ℝ) < 0 := by norm_num
    simp [lseLoop, Scalar.max, Scalar.sub, Scalar.exp, Scalar.mul, Scalar.add,
      Scalar.ln, Real.exp_zero, Real.exp_ne_zero, Real.exp_pos, h10]

theorem hasNanScan_insNegInf {l w : List Scalar} (h : InsNegInf l w) :
    hasNanScan w = hasNanScan l := by
  induction h with
  | nil => rfl
  | cons v h ih =>
    cases v with
    | nan => rfl
    | inf => simpa [hasNanScan] using ih
    | neginf => simpa [hasNanScan] using ih
    | finite x => simpa [hasNanScan] using ih
  | ins h ih => simpa [hasNanScan] using ih

theorem lseLoop_insNegInf {l w : List Scalar} (h : InsNegInf l w) :
    ∀ m s, lseLoop m s w = lseLoop m s l := by
  induction h with
  | nil => intro m s; rfl
  | cons v h ih =>
    intro m s
    cases v with
    | nan => rfl
    | inf => simpa [lseLoop] using hasNanScan_insNegInf h
    | neginf => simpa [lseLoop] using ih m s
    | finite x => simpa [lseLoop] using ih _ _
  | ins h ih =>
    intro m s
    simpa [lseLoop] using ih m s

/-- C9: `ln_sum_exp` is invariant to inserting any number of extra `-inf`
elements at any positions of the input sequence. -/
theorem c9_neg_inf_insertion_invariant {v w : List Scalar} (h : InsNegInf v w) :
    ln_sum_exp w = ln_sum_exp v :=
  lseLoop_insNegInf h Scalar.neginf (Scalar.finite 0)

/-- Witness for C9: inserting two `-inf` around the input `[+inf]`. -/
theorem c9_witness :
    InsNegInf [Scalar.inf] [Scalar.neginf, Scalar.inf, Scalar.neginf] ∧
    ln_sum_exp [Scalar.neginf, Scalar.inf, Scalar.neginf] = ln_sum_exp [Scalar.inf] :=
  ⟨.ins (.cons _ (.ins .nil)),
    c9_neg_inf_insertion_invariant (.ins (.cons _ (.ins .nil)))⟩

theorem hasNanScanRef_eq (l : List Scalar) : hasNanScanRef l = hasNanScan l := by
  induction l with
  | nil => rfl
  | cons v rest ih =>
    cases v with
    | nan => rfl
    | inf => simpa [hasNanScanRef, hasNanScan] using ih
    | neginf => simpa [hasNanScanRef, hasNanScan] using ih
    | finite x => simpa [hasNanScanRef, hasNanScan] using ih

theorem lseLoopRef_eq (l : List Scalar) : ∀ m s, lseLoopRef m s l = lseLoop m s l := by
  induction l with
  | nil => intro m s; rfl
  | cons v rest ih =>
    intro m s
    cases v with
    | nan => rfl
    | inf => simpa [lseLoopRef, lseLoop] using hasNanScanRef_eq rest
    | neginf => simpa [lseLoopRef, lseLoop] using ih m s
    | finite x => simpa [lseLoopRef, lseLoop] using ih _ _

/-- C10: the by-reference and by-value implementations of `ln_sum_exp` give
the identical result on every sequence of scalars, including the NaN and
infinity early-return cases. -/
theorem c10_ref_value_equiv (v : List Scalar) : ln_sum_exp_ref v = ln_sum_exp v :=
  lseLoopRef_eq v Scalar.neginf (Scalar.finite 0)

/-- C5: if at least one operand of `ln_add_exp` is NaN, the result is NaN,
regardless of the other operand and of argument order. -/
theorem c5_nan_operand_gives_nan {a b : Scalar}
    (h : a = Scalar.nan ∨ b = Scalar.nan) : ln_add_exp a b = Scalar.nan := by
  rcases h with rfl | rfl
  · cases b <;>
      simp [ln_add_exp, Scalar.Lt, Scalar.Eqf, Scalar.sub, Scalar.add, Scalar.ln_1p_exp]
  · cases a <;>
      simp [ln_add_exp, Scalar.Lt, Scalar.Eqf, Scalar.sub, Scalar.add, Scalar.ln_1p_exp]

/-- Witness for C5 at the concrete input `(+inf, NaN)`. -/
theorem c5_witness :
    (Scalar.inf = Scalar.nan ∨ Scalar.nan = Scalar.nan) ∧
    ln_add_exp Scalar.inf Scalar.nan = Scalar.nan :=
  ⟨Or.inr rfl, c5_nan_operand_gives_nan (Or.inr rfl)⟩

/-- C4: the exact infinity edge-case policy of `ln_add_exp`:
`(+inf,+inf) = +inf`, `(+inf,-inf) = +inf`, `(-inf,-inf) = -inf`,
`(+inf,x) = +inf` for every finite `x`, and `(-inf,x) = x` exactly for every
finite `x`. -/
theorem c4_ln_add_exp_infinity_cases :
    ln_add_exp Scalar.inf Scalar.inf = Scalar.inf ∧
    ln_add_exp Scalar.inf Scalar.neginf = Scalar.inf ∧
    ln_add_exp Scalar.neginf Scalar.neginf = Scalar.neginf ∧
    (∀ x : ℝ, ln_add_exp Scalar.inf (Scalar.finite x) = Scalar.inf) ∧
    (∀ x : ℝ, ln_add_exp Scalar.neginf (Scalar.finite x) = Scalar.finite x) := by
  refine ⟨?_, ?_, ?_, fun x => ?_, fun x => ?_⟩ <;>
    simp [ln_add_exp, Scalar.Lt, Scalar.Eqf, Scalar.sub, Scalar.add, Scalar.ln_1p_exp]

/-- C6: `ln_add_exp` is symmetric in its two arguments, for all scalars,
including NaN (both orders give NaN) and non-NaN operands (identical
results). -/
theorem c6_ln_add_exp_symm (a b : Scalar) : ln_add_exp a b = ln_add_exp b a := by
  cases a with
  | nan => cases b <;>
      simp [ln_add_exp, Scalar.Lt, Scalar.Eqf, Scalar.sub, Scalar.add, Scalar.ln_1p_exp]
  | inf => cases b <;>
      simp [ln_add_exp, Scalar.Lt, Scalar.Eqf, Scalar.sub, Scalar.add, Scalar.ln_1p_exp]
  | neginf => cases b <;>
      simp [ln_add_exp, Scalar.Lt, Scalar.Eqf, Scalar.sub, Scalar.add, Scalar.ln_1p_exp]
  | finite x =>
    cases b with
    | nan =>
      simp [ln_add_exp, Scalar.Lt, Scalar.Eqf, Scalar.sub, Scalar.add, Scalar.ln_1p_exp]
    | inf =>
      simp [ln_add_exp, Scalar.Lt, Scalar.Eqf, Scalar.sub, Scalar.add, Scalar.ln_1p_exp]
    | neginf =>
      simp [ln_add_exp, Scalar.Lt, Scalar.Eqf, Scalar.sub, Scalar.add, Scalar.ln_1p_exp]
    | finite y =>
      rcases lt_trichotomy x y with hxy | rfl | hyx
      · simp [ln_add_exp, Scalar.Lt, Scalar.Eqf, hxy, hxy.ne, hxy.ne', hxy.asymm]
      · rfl
      · simp [ln_add_exp, Scalar.Lt, Scalar.Eqf, hyx, hyx.ne, hyx.ne', hyx.asymm]

theorem rmax_cons {l : List ℝ} (x : ℝ) (h : l ≠ []) :
    rmax (x :: l) = Max.max x (rmax l) := by
  cases l with
  | nil => exact absurd rfl h
  | cons y t => rfl

theorem le_rmax_of_mem {l : List ℝ} {x : ℝ} (h : x ∈ l) : x ≤ rmax l := by
  induction l with
  | nil => cases h
  | cons y t ih =>
    rcases List.mem_cons.mp h with rfl | hm
    · cases t with
      | nil => exact le_of_eq rfl
      | cons z t2 => exact le_max_left _ _
    · cases t with
      | nil => cases hm
      | cons z t2 => exact le_trans (ih hm) (le_max_right _ _)

theorem rmax_append (x : ℝ) :
    ∀ (l : List ℝ), l ≠ [] → rmax (l ++ [x]) = Max.max (rmax l) x
  | [], h => absurd rfl h
  | [y], _ => rfl
  | y :: z :: t, _ => by
      have ih := rmax_append x (z :: t) (by simp)
      calc rmax ((y :: z :: t) ++ [x])
          = Max.max y (rmax ((z :: t) ++ [x])) := rfl
        _ = Max.max y (Max.max (rmax (z :: t)) x) := by rw [ih]
        _ = Max.max (Max.max y (rmax (z :: t))) x := by rw [max_assoc]
        _ = Max.max (rmax (y :: z :: t)) x := rfl

theorem sum_rescale (l : List ℝ) (M N : ℝ) :
    ((l.map fun y => Real.exp (y - M)).sum) * Real.exp (M - N) =
      (l.map fun y => Real.exp (y - N)).sum := by
  have key : ∀ y : ℝ, Real.exp (y - M) * Real.exp (M - N) = Real.exp (y - N) := by
    intro y
    rw [← Real.exp_add]
    ring_nf
  rw [← List.sum_map_mul_right]
  simp only [key]

theorem list_sum_le_length {l : List ℝ} (h : ∀ y ∈ l, y ≤ 1) :
    l.sum ≤ (l.length : ℝ) := by
  induction l with
  | nil => simp
  | cons y t ih =>
    have h1 : y ≤ 1 := h y (List.mem_cons_self _ _)
    have h2 := ih fun z hz => h z (List.mem_cons_of_mem _ hz)
    simp only [List.sum_cons, List.length_cons]
    push_cast
    linarith

theorem goodState_step {m s : Scalar} {l : List ℝ} (h : GoodState m s l) (x : ℝ) :
    GoodState (Scalar.max m (Scalar.finite x))
      (Scalar.add
        (Scalar.mul s (Scalar.exp (Scalar.sub m (Scalar.max m (Scalar.finite x)))))
        (Scalar.exp (Scalar.sub (Scalar.finite x) (Scalar.max m (Scalar.finite x)))))
      (l ++ [x]) := by
  rcases h with ⟨hl, rfl, rfl⟩ | ⟨hl, hm, hs⟩
  · subst hl
    right
    refine ⟨by simp, by simp [Scalar.max, rmax], ?_⟩
    simp [Scalar.max, Scalar.sub, Scalar.exp, Scalar.mul, Scalar.add, rmax]
  · subst hm
    subst hs
    right
    have hM := rmax_append x l hl
    refine ⟨by simp, by simp [Scalar.max, hM], ?_⟩
    simp only [Scalar.max, Scalar.sub, Scalar.exp, Scalar.mul, Scalar.add, hM]
    congr 1
    rw [List.map_append, List.sum_append]
    simp only [List.map_cons, List.map_nil, List.sum_cons, List.sum_nil, add_zero]
    rw [sum_rescale l (rmax l) (Max.max (rmax l) x)]

theorem lseLoop_append {p : List Scalar}
    (h : ∀ v ∈ p, v = Scalar.neginf ∨ ∃ x, v = Scalar.finite x) :
    ∀ m s rest, lseLoop m s (p ++ rest) =
      lseLoop (lseRun m s p).1 (lseRun m s p).2 rest := by
  induction p with
  | nil => intro m s rest; rfl
  | cons v q ih =>
    intro m s rest
    have hq : ∀ u ∈ q, u = Scalar.neginf ∨ ∃ x, u = Scalar.finite x :=
      fun u hu => h u (List.mem_cons_of_mem _ hu)
    rcases h v (List.mem_cons_self _ _) with rfl | ⟨x, rfl⟩
    · simpa [lseLoop, lseRun] using ih hq m s rest
    · simpa [lseLoop, lseRun] using ih hq _ _ rest

theorem lseRun_goodState :
    ∀ (p : List Scalar), (∀ v ∈ p, v = Scalar.neginf ∨ ∃ x, v = Scalar.finite x) →
    ∀ (m s : Scalar) (l : List ℝ), GoodState m s l →
      GoodState (lseRun m s p).1 (lseRun m s p).2 (l ++ finVals p) := by
  intro p
  induction p with
  | nil =>
    intro _ m s l h
    simpa [lseRun, finVals] using h
  | cons v q ih =>
    intro hp m s l h
    have hq : ∀ u ∈ q, u = Scalar.neginf ∨ ∃ x, u = Scalar.finite x :=
      fun u hu => hp u (List.mem_cons_of_mem _ hu)
    rcases hp v (List.mem_cons_self _ _) with rfl | ⟨x, rfl⟩
    · simpa [lseRun, finVals] using ih hq m s l h
    · have h2 := ih hq _ _ _ (goodState_step h x)
      simpa [lseRun, finVals, List.append_assoc] using h2

/-- C3: after any NaN-free, `+inf`-free prefix of the input, the streaming
pass continues from the state computed by `lseRun`; in that state `sum` is
exactly the sum of the terms `exp(v - m_old)` over the finite values of the
prefix with `m_old` their maximum (the seeds when none were processed), each
term lies in `(0, 1]`, and `sum` never exceeds the count of finite terms
processed so far. -/
theorem c3_running_sum_invariant (p : List Scalar)
    (h : ∀ v ∈ p, v = Scalar.neginf ∨ ∃ x, v = Scalar.finite x) :
    (∀ rest, ln_sum_exp (p ++ rest) =
        lseLoop (lseRun Scalar.neginf (Scalar.finite 0) p).1
          (lseRun Scalar.neginf (Scalar.finite 0) p).2 rest) ∧
    GoodState (lseRun Scalar.neginf (Scalar.finite 0) p).1
      (lseRun Scalar.neginf (Scalar.finite 0) p).2 (finVals p) ∧
    (∀ x ∈ finVals p, 0 < Real.exp (x - rmax (finVals p)) ∧
        Real.exp (x - rmax (finVals p)) ≤ 1) ∧
    ((finVals p).map fun x => Real.exp (x - rmax (finVals p))).sum ≤
      ((finVals p).length : ℝ) := by
  refine ⟨fun rest => lseLoop_append h Scalar.neginf (Scalar.finite 0) rest, ?_, ?_, ?_⟩
  · simpa using
      lseRun_goodState p h Scalar.neginf (Scalar.finite 0) [] (Or.inl ⟨rfl, rfl, rfl⟩)
  · intro x hx
    exact ⟨Real.exp_pos _,
      Real.exp_le_one_iff.mpr (sub_nonpos.mpr (le_rmax_of_mem hx))⟩
  · have h1 : ∀ y ∈ (finVals p).map fun x => Real.exp (x - rmax (finVals p)), y ≤ 1 := by
      intro y hy
      rcases List.mem_map.mp hy with ⟨x, hx, rfl⟩
      exact Real.exp_le_one_iff.mpr (sub_nonpos.mpr (le_rmax_of_mem hx))
    simpa [List.length_map] using list_sum_le_length h1

/-- Witness for C3 at the concrete prefix `[0.0]`: the running sum after it
is bounded by the count of finite terms. -/
theorem c3_witness :
    ((finVals [Scalar.finite (0 : ℝ)]).map fun x =>
        Real.exp (x - rmax (finVals [Scalar.finite (0 : ℝ)]))).sum ≤
      ((finVals [Scalar.finite (0 : ℝ)]).length : ℝ) :=
  (c3_running_sum_invariant [Scalar.finite 0]
    (fun v hv => Or.inr ⟨0, by simpa using hv⟩)).2.2.2
